import Mathlib

/-!
Verification of the listing render pipeline of the `els` directory-listing
utility (Rust sources under `src/`).  The Rust code is shallowly embedded:
pure functions become Lean functions over `List Char` (one entry per Unicode
scalar value, the unit Rust's `chars()` iterates over), and every filesystem
interaction is passed in explicitly as data (an `Option` holding what the
corresponding `std::fs` call would have returned, `none` for an `Err`).
Machine integers are modelled as `Nat`; `usize` subtraction, which wraps in
the compiled program, is written with an explicit `% 2 ^ 64`.
-/

namespace Els

/-! ### Data model (src/types.rs) -/

/-- FileType from src/types.rs: variant of a listing row. -/
inductive FileType where
  | File
  | Directory
deriving DecidableEq

/-- ContentType from src/types.rs: coarse content classification. -/
inductive ContentType where
  | Directory
  | NotReadable
  | Empty
  | BinaryExecutable
  | BinaryOther
  | Text
  | Other
  | Unknown
deriving DecidableEq

/-- Align from src/types.rs: per-column alignment rule. -/
inductive Align where
  | Left
  | Right
deriving DecidableEq

/-- ColType from src/types.rs: the eight logical columns. -/
inductive ColType where
  | Acls
  | Owner
  | FileType
  | Size
  | TimeIso
  | SrcName
  | TargetName
  | Preview
deriving DecidableEq

/-- StatResult from src/types.rs: captured stat record. -/
structure StatResult where
  st_mode : Nat
  st_mtime : Int
  st_uid : Nat
  st_gid : Nat
  st_size : Nat

/-- FileRowInfo from src/types.rs (the path string as a char list). -/
structure FileRowInfo where
  fname : List Char
  ftype : FileType
  stat_res : StatResult
  content_type : ContentType
  time_epoch : List Char

/-- RenderedCols from src/types.rs: the eight rendered column strings. -/
structure RenderedCols where
  acls : List Char
  owner : List Char
  filetype : List Char
  size : List Char
  timeiso : List Char
  srcname : List Char
  targetname : List Char
  preview : List Char

/-- FileRow from src/types.rs. -/
structure FileRow where
  info : FileRowInfo
  render : RenderedCols

/-- ColDef from src/types.rs: one entry of the static column table. -/
structure ColDef where
  name : ColType
  align : Align
  only_full : Bool

/-! ### Classifier (src/file_info.rs) -/

/-- Coarse kind returned by the content-sniffing collaborator
(`mimetype_detector`): `get_file_info_via_crate` in src/file_info.rs checks
`kind.is_text()` first, then `kind.is_executable()`, else treats the file as
other binary, so the collaborator is a trichotomy. -/
inductive SniffKind where
  | text
  | executable
  | other
deriving DecidableEq

/-- get_content_type from src/file_info.rs.  The filesystem probes are passed
in as data: `isDir` is `path.is_dir()`, `canOpen` is whether
`fs::File::open(path)` succeeded, `st_size` is `stat_res.st_size`, and
`sniff` is the collaborator's result (`none` when `detect_file` failed).
The final `match` inlines `get_file_info_via_crate`. -/
def get_content_type (isDir : Bool) (canOpen : Bool) (st_size : Nat)
    (sniff : Option SniffKind) : ContentType :=
  if isDir then ContentType.Directory
  else if canOpen = false then ContentType.NotReadable
  else if st_size = 0 then ContentType.Empty
  else
    match sniff with
    | none => ContentType.Unknown
    | some SniffKind.text => ContentType.Text
    | some SniffKind.executable => ContentType.BinaryExecutable
    | some SniffKind.other => ContentType.BinaryOther

/-! ### Column table (src/columns.rs) and listing order (src/render.rs) -/

/-- get_col_defs from src/columns.rs: the static eight-entry column table. -/
def get_col_defs : List ColDef :=
  [ ⟨ColType.Acls, Align.Left, true⟩,
    ⟨ColType.Owner, Align.Left, true⟩,
    ⟨ColType.FileType, Align.Left, true⟩,
    ⟨ColType.Size, Align.Right, false⟩,
    ⟨ColType.TimeIso, Align.Left, false⟩,
    ⟨ColType.SrcName, Align.Left, false⟩,
    ⟨ColType.TargetName, Align.Left, false⟩,
    ⟨ColType.Preview, Align.Left, true⟩ ]

/-- get_cols_listing from src/render.rs: the column order actually rendered,
built by conditional pushes exactly as in the source. -/
def get_cols_listing (full : Bool) : List ColType :=
  (if full then [ColType.Acls, ColType.Owner, ColType.FileType] else [])
    ++ [ColType.Size, ColType.TimeIso, ColType.SrcName, ColType.TargetName]
    ++ (if full then [ColType.Preview] else [])

/-- get_col_align from src/render.rs. -/
def get_col_align : ColType → Align
  | ColType.Size => Align.Right
  | _ => Align.Left

/-! ### Alignment engine (src/render.rs) -/

/-- add_padding from src/render.rs. -/
def add_padding (text : List Char) (width : Nat) (align : Align) : List Char :=
  if text.isEmpty then [' ']
  else if width ≤ text.length then text
  else
    let pad := List.replicate (width - text.length) ' '
    match align with
    | Align.Left => text ++ pad
    | Align.Right => pad ++ text

/-! ### Utilities (src/utils.rs) -/

/-- Modulus of wrapping `usize` arithmetic in the compiled program. -/
def USIZE : Nat := 2 ^ 64

/-- truncate_middle from src/utils.rs.  `available = max_len - ellipsis_len`
is `usize` subtraction, which wraps modulo `2 ^ 64` when `max_len < 3`, as
does `char_count - back_len`; the wraps are written out explicitly (for
`3 ≤ max_len < 2 ^ 64` they are the plain subtractions of the source). -/
def truncate_middle (s : List Char) (max_len : Nat) : List Char :=
  if s.length ≤ max_len then s
  else
    let available := (USIZE + max_len - 3) % USIZE
    let front_len := ((available + 1) % USIZE) / 2
    let back_len := available / 2
    s.take front_len ++ ['.', '.', '.']
      ++ s.drop ((USIZE + s.length - back_len) % USIZE)

/-- Whether `pat` occurs at the head of `l` (claim-side helper). -/
def leadsWith : List Char → List Char → Bool
  | _, [] => true
  | [], _ :: _ => false
  | a :: restA, b :: restB => a == b && leadsWith restA restB

/-- Number of positions of `l` at which `pat` occurs, overlapping
occurrences counted separately (claim-side helper for "contains the literal
substring `...` exactly once"). -/
def countOcc (l pat : List Char) : Nat :=
  (List.range (l.length + 1)).countP (fun i => leadsWith (l.drop i) pat)

/-- White_Space code points: model of Rust `char::is_whitespace`, used by
collapse_whitespace and by `str::trim` (src/utils.rs). -/
def rustIsWhitespace (c : Char) : Bool :=
  decide (c.toNat = 0x20 ∨ (0x09 ≤ c.toNat ∧ c.toNat ≤ 0x0D) ∨ c.toNat = 0x85
    ∨ c.toNat = 0xA0 ∨ c.toNat = 0x1680
    ∨ (0x2000 ≤ c.toNat ∧ c.toNat ≤ 0x200A)
    ∨ c.toNat = 0x2028 ∨ c.toNat = 0x2029 ∨ c.toNat = 0x202F
    ∨ c.toNat = 0x205F ∨ c.toNat = 0x3000)

/-- Cc (control) code points: model of Rust `char::is_control`. -/
def rustIsControl (c : Char) : Bool :=
  decide (c.toNat ≤ 0x1F ∨ (0x7F ≤ c.toNat ∧ c.toNat ≤ 0x9F))

/-- Branch condition of the collapse_whitespace loop (src/utils.rs):
`c.is_whitespace() || c.is_control() || (c as u32) < 0x20`. -/
def spacey (c : Char) : Bool :=
  rustIsWhitespace c || rustIsControl c || decide (c.toNat < 0x20)

/-- Character loop of collapse_whitespace from src/utils.rs; the second
argument is the `prev_was_space` flag, initially true. -/
def collapseCore : List Char → Bool → List Char
  | [], _ => []
  | c :: rest, prev =>
      if spacey c then
        if prev then collapseCore rest true else ' ' :: collapseCore rest true
      else c :: collapseCore rest false

/-- Rust `str::trim`: strip leading and trailing White_Space characters. -/
def rustTrim (l : List Char) : List Char :=
  ((l.dropWhile rustIsWhitespace).reverse.dropWhile rustIsWhitespace).reverse

/-- collapse_whitespace from src/utils.rs. -/
def collapse_whitespace (s : List Char) : List Char :=
  rustTrim (collapseCore s true)

/-- is_printable_ascii from src/utils.rs, on the byte value as a `Nat`. -/
def is_printable_ascii (b : Nat) : Bool :=
  decide ((0x21 ≤ b ∧ b ≤ 0x7E) ∨ (0x09 ≤ b ∧ b ≤ 0x0D))

/-- Decimal digit string of `n`, most significant digit first: model of the
`size.to_string()` call in format_size_with_commas (src/utils.rs). -/
def toDecimal (n : Nat) : List Char :=
  if n = 0 then ['0'] else ((Nat.digits 10 n).map Nat.digitChar).reverse

/-- Loop body of format_size_with_commas from src/utils.rs: `i` is the
position of the digit `c` in the digit string of length `len`; a comma is
pushed before the digit when `i > 0 && (len - i) % 3 == 0`. -/
def commaAux (len : Nat) : Nat → List Char → List Char
  | _, [] => []
  | i, c :: rest =>
      (if 0 < i ∧ (len - i) % 3 = 0 then [',', c] else [c])
        ++ commaAux len (i + 1) rest

/-- The whole comma-insertion loop of format_size_with_commas. -/
def insertCommas (s : List Char) : List Char := commaAux s.length 0 s

/-- format_size_with_commas from src/utils.rs. -/
def format_size_with_commas (n : Nat) : List Char := insertCommas (toDecimal n)

/-- Claim-side helper: split a reversed digit string into groups of three. -/
def chunksRev : List Char → List (List Char)
  | [] => []
  | [a] => [[a]]
  | [a, b] => [[a, b]]
  | a :: b :: c :: rest => [a, b, c] :: chunksRev rest

/-- Claim-side helper: groups of three characters counted from the right;
the leftmost group holds the leftover one or two characters. -/
def chunksRight (l : List Char) : List (List Char) :=
  ((chunksRev l.reverse).map List.reverse).reverse

/-- Claim-side helper: join character groups with single commas. -/
def joinComma : List (List Char) → List Char
  | [] => []
  | [g] => g
  | g :: gs => g ++ ',' :: joinComma gs

/-- Claim-side helper: parse a digit string, most significant digit first. -/
def parseDigits (l : List Char) : Nat :=
  l.foldl (fun acc c => 10 * acc + (c.toNat - 48)) 0

/-! ### Preview generator (src/preview.rs) -/

/-- Per-entry mapping inside preview_directory (src/preview.rs): the entry's
file name, suffixed with `/` when the symlink-resolved entry path is a
directory.  An entry is modelled as the pair of its name and that
`real_path.is_dir()` outcome. -/
def dirChildName (p : List Char × Bool) : List Char :=
  if p.2 then p.1 ++ ['/'] else p.1

/-- Rust `Vec::join(" ")`. -/
def joinSpace : List (List Char) → List Char
  | [] => []
  | [x] => x
  | x :: xs => x ++ ' ' :: joinSpace xs

/-- Rust `str::rfind(' ')`, as a character position.  The source's byte
index falls on the same boundary: a space is ASCII, so the characters
before it are exactly the characters before its byte index, and the byte
index is zero exactly when the character index is. -/
def rfindSpace : List Char → Option Nat
  | [] => none
  | c :: rest =>
      match rfindSpace rest with
      | some i => some (i + 1)
      | none => if c = ' ' then some 0 else none

/-- The `cleaned` binding of preview_directory (src/preview.rs): trim the
truncation at the last space, unless there is none or it sits at index 0. -/
def cleanedOf (truncated : List Char) : List Char :=
  match rfindSpace truncated with
  | some idx => if 0 < idx then truncated.take idx else truncated
  | none => truncated

/-- preview_directory from src/preview.rs on the successfully read entry
list (`DIR_PREVIEW_MAX_FILES = 32`, `DIR_PREVIEW_TRUNC_LEN = 20`). -/
def preview_directory_core (files : List (List Char × Bool)) : List Char :=
  let all_files := files.map dirChildName
  let sub_files := all_files.take 32
  let cleaned := cleanedOf ((joinSpace sub_files).take 20)
  if sub_files.length < all_files.length then cleaned ++ (' ' :: ['.', '.', '.'])
  else cleaned

/-- preview_directory from src/preview.rs, given the outcome of the
`fs::read_dir` call (`none` models an `Err`). -/
def preview_directory : Option (List (List Char × Bool)) → List Char
  | none => ['-']
  | some files => preview_directory_core files

/-- preview_binary from src/preview.rs, given the outcome of opening and
reading the file: `none` models an `Err` from `File::open` or from `read`
(both return `" "`), `some bytes` the at most `PREVIEW_READ_LEN = 256`
bytes read; `bytes_read == 0` also returns `" "`. -/
def preview_binary (res : Option (List Nat)) : List Char :=
  match res with
  | none => [' ']
  | some bytes =>
      if bytes.length = 0 then [' ']
      else
        let printable := (bytes.filter is_printable_ascii).map Char.ofNat
        (collapse_whitespace printable).take 20

/-- Rendering of claim C2's trim rule, word for word: take the first 20
characters of the joined text; only when that cut falls mid-word (a cut
happened, the last kept character is not a space, and the first dropped
character is not a space) trim back to the last preceding space boundary,
never trimming to an empty string when the boundary is at position 0. -/
def preview_directory_claimed (files : List (List Char × Bool)) : List Char :=
  let all_files := files.map dirChildName
  let sub_files := all_files.take 32
  let txt := joinSpace sub_files
  let truncated := txt.take 20
  let cleaned :=
    if truncated.length < txt.length ∧ truncated.getLast? ≠ some ' '
        ∧ txt.get? 20 ≠ some ' ' then cleanedOf truncated
    else truncated
  if sub_files.length < all_files.length then cleaned ++ (' ' :: ['.', '.', '.'])
  else cleaned

/-- Trim a string back to its last space boundary, removing the space and
everything after it; a string with no space, or whose only space sits at
position 0, is kept whole (helper for the amended claim C2, deliberately
phrased through `dropWhile` on the reversed string rather than through
`rfindSpace`). -/
def trimToLastSpace (l : List Char) : List Char :=
  match l.reverse.dropWhile (fun c => !(c == ' ')) with
  | [] => l
  | [_] => l
  | _ :: revA => revA.reverse

/-- Amended form of the directory preview (claim C2): children with `/`
suffixes, joined by single spaces, cut to the first 20 characters, trimmed
back to the last space boundary whenever the truncation contains a space
past position 0 — whether or not the cut fell mid-word — with `" ..."`
appended exactly when the directory holds more than 32 children, and `"-"`
for an unreadable directory. -/
def preview_directory_amended : Option (List (List Char × Bool)) → List Char
  | none => ['-']
  | some files =>
      let cleaned := trimToLastSpace ((joinSpace ((files.map dirChildName).take 32)).take 20)
      if 32 < files.length then cleaned ++ (' ' :: ['.', '.', '.']) else cleaned

/-! ### Sorter (src/main.rs) -/

/-- Rust `str::to_lowercase`, modelled character-wise (the handful of
special multi-character Unicode lowercasings do not arise for paths
compared here and are not modelled). -/
def lowerName (l : List Char) : List Char := l.map Char.toLower

/-- Rust `Ord::cmp` on strings is lexicographic on the UTF-8 bytes, which
orders exactly like the scalar values: `lexLe a b` is `a.cmp(b) != Greater`. -/
def lexLe : List Char → List Char → Bool
  | [], _ => true
  | _ :: _, [] => false
  | a :: restA, b :: restB =>
      if a.toNat < b.toNat then true
      else if b.toNat < a.toNat then false
      else lexLe restA restB

/-- The comparator closure of sort_rows (src/main.rs) as a `≤` test:
`rowLe a b` is `comparator(a, b) != Greater`.  Directories sort before
files; within a bucket, case-insensitive comparison of the full path. -/
def rowLe (a b : FileRow) : Bool :=
  match a.info.ftype, b.info.ftype with
  | FileType.Directory, FileType.File => true
  | FileType.File, FileType.Directory => false
  | _, _ => lexLe (lowerName a.info.fname) (lowerName b.info.fname)

/-- sort_rows from src/main.rs: `slice::sort_by` is a stable sort, so its
output is the stable merge sort under the comparator's `≤`. -/
def sort_rows (rows : List FileRow) : List FileRow := rows.mergeSort rowLe

/-- Sample row for concrete instances. -/
def sampleRow (name : List Char) (t : FileType) : FileRow :=
  ⟨⟨name, t, ⟨0, 0, 0, 0, 0⟩, ContentType.Text, []⟩,
   ⟨[], [], [], [], [], [], [], []⟩⟩

/-! ## Theorems -/

/-- Claim C3: `get_content_type` chooses the ContentType by first-match
precedence: Directory if the path is a directory; else NotReadable if the
path cannot be opened for reading; else Empty if the stat size is 0; else
the sniffed kind mapped text → Text, executable → BinaryExecutable,
other → BinaryOther, with sniffing failure → Unknown. -/
theorem get_content_type_precedence (isDir canOpen : Bool) (st_size : Nat)
    (sniff : Option SniffKind) :
    (isDir = true → get_content_type isDir canOpen st_size sniff = ContentType.Directory)
    ∧ (isDir = false → canOpen = false →
        get_content_type isDir canOpen st_size sniff = ContentType.NotReadable)
    ∧ (isDir = false → canOpen = true → st_size = 0 →
        get_content_type isDir canOpen st_size sniff = ContentType.Empty)
    ∧ (isDir = false → canOpen = true → st_size ≠ 0 →
        get_content_type isDir canOpen st_size sniff =
          match sniff with
          | some SniffKind.text => ContentType.Text
          | some SniffKind.executable => ContentType.BinaryExecutable
          | some SniffKind.other => ContentType.BinaryOther
          | none => ContentType.Unknown) := by
  refine ⟨?_, ?_, ?_, ?_⟩
  · intro h; simp [get_content_type, h]
  · intro h h2; simp [get_content_type, h, h2]
  · intro h h2 h3; simp [get_content_type, h, h2, h3]
  · intro h h2 h3
    cases sniff with
    | none => simp [get_content_type, h, h2, h3]
    | some k => cases k <;> simp [get_content_type, h, h2, h3]

theorem get_content_type_precedence_witness :
    get_content_type false true 5 (some SniffKind.text) = ContentType.Text :=
  (get_content_type_precedence false true 5 (some SniffKind.text)).2.2.2
    rfl rfl (by decide)

/-- Claim C9: although `Other` is a declared variant of `ContentType`, the
classifier `get_content_type` never produces it: every result is one of
Directory, NotReadable, Empty, Text, BinaryExecutable, BinaryOther, Unknown. -/
theorem get_content_type_never_other (isDir canOpen : Bool) (st_size : Nat)
    (sniff : Option SniffKind) :
    get_content_type isDir canOpen st_size sniff ∈
      [ContentType.Directory, ContentType.NotReadable, ContentType.Empty,
       ContentType.Text, ContentType.BinaryExecutable, ContentType.BinaryOther,
       ContentType.Unknown] := by
  by_cases hs : st_size = 0 <;>
    cases isDir <;> cases canOpen <;>
      rcases sniff with _ | (_ | _ | _) <;>
        simp [get_content_type, hs]

/-- Claim C10: the compact-mode column list equals, in order, exactly the
entries of the static column table whose `only_full` flag is false; the
full-mode list equals the whole table in order; and `get_col_align` agrees
with the `align` field of every table entry. -/
theorem col_defs_consistent :
    get_cols_listing false = (get_col_defs.filter (fun d => !d.only_full)).map ColDef.name
    ∧ get_cols_listing true = get_col_defs.map ColDef.name
    ∧ get_col_defs.map (fun d => get_col_align d.name) = get_col_defs.map ColDef.align := by
  refine ⟨rfl, rfl, rfl⟩

/-- Claim C8: `add_padding` replaces an empty value with a single space; a
value whose character count meets or exceeds the width is returned unchanged
(never truncated); otherwise a left-aligned value receives trailing spaces
and a right-aligned value receives leading spaces, reaching exactly the
target width. -/
theorem add_padding_ok (text : List Char) (width : Nat) (align : Align) :
    (text = [] → add_padding text width align = [' '])
    ∧ (text ≠ [] → width ≤ text.length → add_padding text width align = text)
    ∧ (text ≠ [] → text.length < width →
        (add_padding text width align).length = width
        ∧ (align = Align.Left →
            add_padding text width align =
              text ++ List.replicate (width - text.length) ' ')
        ∧ (align = Align.Right →
            add_padding text width align =
              List.replicate (width - text.length) ' ' ++ text)) := by
  refine ⟨?_, ?_, ?_⟩
  · intro h; simp [add_padding, h]
  · intro h h2; simp [add_padding, h, h2]
  · intro h h2
    have hne : text.isEmpty = false := by
      cases text with
      | nil => exact absurd rfl h
      | cons a l => rfl
    have hnw : ¬ width ≤ text.length := by omega
    refine ⟨?_, ?_, ?_⟩
    · cases align <;> simp [add_padding, hne, hnw] <;> omega
    · intro ha; subst ha; simp [add_padding, hne, hnw]
    · intro ha; subst ha; simp [add_padding, hne, hnw]

theorem add_padding_ok_witness :
    (add_padding ['a', 'b', 'c'] 6 Align.Right).length = 6 :=
  ((add_padding_ok ['a', 'b', 'c'] 6 Align.Right).2.2 (by decide) (by decide)).1

/-- Claim C5 fails as stated: for the eight-dot string truncated to 7, the
result is seven dots, which contains the literal substring `...` five
times (overlapping), not exactly once. -/
theorem truncate_middle_ellipsis_not_unique :
    truncate_middle (List.replicate 8 '.') 7 = List.replicate 7 '.'
    ∧ countOcc (truncate_middle (List.replicate 8 '.') 7) ['.', '.', '.'] = 5 := by
  constructor <;> decide

/-- Claim C5, amended: for `3 ≤ max_len`, a string of more than `max_len`
characters is truncated to exactly `max_len` characters, keeping
`⌈(max_len-3)/2⌉` characters from the front and `⌊(max_len-3)/2⌋` from the
back joined by the literal `...` (so the result contains `...`, though not
necessarily exactly once); a string of at most `max_len` characters is
returned unchanged.  The bounds `max_len < 2^64` and `s.length < 2^64` hold
for every Rust `usize`/`String`. -/
theorem truncate_middle_amended (s : List Char) (max_len : Nat)
    (h3 : 3 ≤ max_len) (hm : max_len < USIZE) (hs : s.length < USIZE) :
    (s.length ≤ max_len → truncate_middle s max_len = s)
    ∧ (max_len < s.length →
        (truncate_middle s max_len).length = max_len
        ∧ truncate_middle s max_len =
            s.take ((max_len - 3 + 1) / 2) ++ ['.', '.', '.']
              ++ s.drop (s.length - (max_len - 3) / 2)
        ∧ ∃ pre post, truncate_middle s max_len = pre ++ ['.', '.', '.'] ++ post) := by
  constructor
  · intro h; simp [truncate_middle, h]
  · intro hlt
    have hnot : ¬ s.length ≤ max_len := by omega
    have e1 : (USIZE + max_len - 3) % USIZE = max_len - 3 := by
      have h1 : USIZE + max_len - 3 = USIZE + (max_len - 3) := by omega
      rw [h1, Nat.add_mod_left, Nat.mod_eq_of_lt (by omega)]
    have e2 : (max_len - 3 + 1) % USIZE = max_len - 3 + 1 :=
      Nat.mod_eq_of_lt (by omega)
    have hback : (max_len - 3) / 2 ≤ max_len - 3 := Nat.div_le_self _ _
    have e3 : (USIZE + s.length - (max_len - 3) / 2) % USIZE
        = s.length - (max_len - 3) / 2 := by
      have h1 : USIZE + s.length - (max_len - 3) / 2
          = USIZE + (s.length - (max_len - 3) / 2) := by omega
      rw [h1, Nat.add_mod_left, Nat.mod_eq_of_lt (by omega)]
    have heq : truncate_middle s max_len =
        s.take ((max_len - 3 + 1) / 2) ++ ['.', '.', '.']
          ++ s.drop (s.length - (max_len - 3) / 2) := by
      simp only [truncate_middle, if_neg hnot, e1, e2, e3]
    refine ⟨?_, heq, ⟨_, _, heq⟩⟩
    rw [heq]
    have hfront : (max_len - 3 + 1) / 2 ≤ s.length := by omega
    simp [List.length_take, List.length_drop, Nat.min_eq_left hfront]
    omega

theorem truncate_middle_amended_witness :
    (truncate_middle ['a', 'b', 'c', 'd', 'e', 'f', 'g', 'h', 'i', 'j'] 7).length = 7 :=
  ((truncate_middle_amended ['a', 'b', 'c', 'd', 'e', 'f', 'g', 'h', 'i', 'j'] 7
    (by decide) (by norm_num [USIZE]) (by norm_num [USIZE])).2 (by decide)).1

/-! Helper lemmas for the comma-insertion loop (claim C6). -/

theorem commaAux_append (len : Nat) (t u : List Char) :
    ∀ i, commaAux len i (t ++ u) = commaAux len i t ++ commaAux len (i + t.length) u := by
  induction t with
  | nil => intro i; simp [commaAux]
  | cons c rest ih =>
    intro i
    have h1 : i + (rest.length + 1) = i + 1 + rest.length := by omega
    simp [commaAux, ih, h1]

theorem commaAux_add_three (len : Nat) (t : List Char) :
    ∀ i, i + t.length ≤ len → commaAux (len + 3) i t = commaAux len i t := by
  induction t with
  | nil => intro i _; rfl
  | cons c rest ih =>
    intro i hi
    simp only [List.length_cons] at hi
    have h1 : (len + 3 - i) % 3 = (len - i) % 3 := by omega
    simp [commaAux, h1, ih (i + 1) (by omega)]

theorem insertCommas_append_three (t : List Char) (a b c : Char) (ht : t ≠ []) :
    insertCommas (t ++ [a, b, c]) = insertCommas t ++ [',', a, b, c] := by
  have h0 : 0 < t.length := List.length_pos.mpr ht
  have hlen : (t ++ [a, b, c]).length = t.length + 3 := by simp
  rw [insertCommas, hlen, commaAux_append]
  congr 1
  · exact commaAux_add_three t.length t 0 (by omega)
  · simp only [Nat.zero_add, commaAux]
    rw [if_pos ⟨h0, by omega⟩, if_neg (by omega), if_neg (by omega)]
    rfl

theorem insertCommas_short (s : List Char) (h : s.length ≤ 3) :
    insertCommas s = s := by
  rcases s with _ | ⟨a, _ | ⟨b, _ | ⟨c, _ | ⟨d, t⟩⟩⟩⟩
  · rfl
  · rfl
  · rfl
  · rfl
  · simp at h

theorem chunksRev_ne_nil (l : List Char) (h : l ≠ []) : chunksRev l ≠ [] := by
  rcases l with _ | ⟨a, _ | ⟨b, _ | ⟨c, r⟩⟩⟩ <;> simp [chunksRev] at h ⊢

theorem chunksRight_append_three (t : List Char) (a b c : Char) :
    chunksRight (t ++ [a, b, c]) = chunksRight t ++ [[a, b, c]] := by
  simp [chunksRight, chunksRev]

theorem chunksRight_ne_nil (l : List Char) (h : l ≠ []) : chunksRight l ≠ [] := by
  have h1 : l.reverse ≠ [] := by simpa using h
  have h2 := chunksRev_ne_nil l.reverse h1
  simp [chunksRight]
  intro hc
  exact h2 hc

theorem joinComma_append_single (xs : List (List Char)) (y : List Char) (h : xs ≠ []) :
    joinComma (xs ++ [y]) = joinComma xs ++ ',' :: y := by
  induction xs with
  | nil => exact absurd rfl h
  | cons x xs ih =>
    cases xs with
    | nil => rfl
    | cons z zs =>
      have step := ih (List.cons_ne_nil z zs)
      show x ++ ',' :: joinComma ((z :: zs) ++ [y])
          = (x ++ ',' :: joinComma (z :: zs)) ++ ',' :: y
      rw [step, List.append_assoc]
      rfl

theorem insertCommas_eq_chunks_aux :
    ∀ (n : Nat) (s : List Char), s.length ≤ n →
      insertCommas s = joinComma (chunksRight s) := by
  intro n
  induction n with
  | zero =>
    intro s hs
    have : s = [] := List.eq_nil_of_length_eq_zero (by omega)
    subst this; rfl
  | succ n ih =>
    intro s hs
    by_cases h3 : s.length ≤ 3
    · rcases s with _ | ⟨a, _ | ⟨b, _ | ⟨c, _ | ⟨d, t⟩⟩⟩⟩
      · rfl
      · rfl
      · rfl
      · rfl
      · simp at h3
    · have hlen : 3 < s.length := by omega
      have hsplit : s.take (s.length - 3) ++ s.drop (s.length - 3) = s :=
        List.take_append_drop _ s
      have hdlen : (s.drop (s.length - 3)).length = 3 := by
        simp [List.length_drop]; omega
      obtain ⟨a, b, c, habc⟩ := List.length_eq_three.mp hdlen
      have htne : s.take (s.length - 3) ≠ [] := by
        intro hcon
        have := congrArg List.length hcon
        simp [List.length_take] at this
        omega
      have htlen : (s.take (s.length - 3)).length ≤ n := by
        simp [List.length_take]; omega
      calc insertCommas s
          = insertCommas (s.take (s.length - 3) ++ [a, b, c]) := by
            rw [← habc, hsplit]
        _ = insertCommas (s.take (s.length - 3)) ++ [',', a, b, c] :=
            insertCommas_append_three _ a b c htne
        _ = joinComma (chunksRight (s.take (s.length - 3))) ++ [',', a, b, c] := by
            rw [ih _ htlen]
        _ = joinComma (chunksRight (s.take (s.length - 3)) ++ [[a, b, c]]) := by
            rw [joinComma_append_single _ _ (chunksRight_ne_nil _ htne)]
        _ = joinComma (chunksRight (s.take (s.length - 3) ++ [a, b, c])) := by
            rw [chunksRight_append_three]
        _ = joinComma (chunksRight s) := by rw [← habc, hsplit]

theorem chunksRev_groups (l : List Char) :
    ∀ g ∈ chunksRev l, g ≠ [] ∧ g.length ≤ 3 := by
  induction l using chunksRev.induct with
  | case1 => simp [chunksRev]
  | case2 a => simp [chunksRev]
  | case3 a b => simp [chunksRev]
  | case4 a b c rest ih =>
    intro g hg
    simp only [chunksRev, List.mem_cons] at hg
    rcases hg with hg | hg
    · subst hg; simp
    · exact ih g hg

theorem chunksRight_groups (l : List Char) :
    ∀ g ∈ chunksRight l, g ≠ [] ∧ g.length ≤ 3 := by
  intro g hg
  simp only [chunksRight, List.mem_reverse, List.mem_map] at hg
  obtain ⟨g', hg', rfl⟩ := hg
  have := chunksRev_groups l.reverse g' hg'
  constructor
  · simpa using this.1
  · simpa using this.2

theorem commaAux_filter (len : Nat) (s : List Char) (hs : ∀ c ∈ s, c ≠ ',') :
    ∀ i, (commaAux len i s).filter (fun c => c != ',') = s := by
  induction s with
  | nil => intro i; rfl
  | cons c rest ih =>
    intro i
    have hc : c ≠ ',' := hs c (by simp)
    have hrest : ∀ d ∈ rest, d ≠ ',' := fun d hd => hs d (by simp [hd])
    simp only [commaAux, List.filter_append, ih hrest]
    split <;> simp [hc]

theorem digitChar_ne_comma : ∀ d < 10, Nat.digitChar d ≠ ',' := by decide

theorem digitChar_toNat : ∀ d < 10, (Nat.digitChar d).toNat = 48 + d := by decide

theorem toDecimal_no_comma (n : Nat) : ∀ c ∈ toDecimal n, c ≠ ',' := by
  intro c hc
  by_cases h : n = 0
  · subst h; simp [toDecimal] at hc; subst hc; decide
  · simp only [toDecimal, if_neg h, List.mem_reverse, List.mem_map] at hc
    obtain ⟨d, hd, rfl⟩ := hc
    exact digitChar_ne_comma d (Nat.digits_lt_base (by norm_num) hd)

theorem parse_rev_map (L : List Nat) (hL : ∀ d ∈ L, d < 10) :
    parseDigits ((L.map Nat.digitChar).reverse) = Nat.ofDigits 10 L := by
  induction L with
  | nil => simp [parseDigits, Nat.ofDigits_nil]
  | cons d L ih =>
    have hd : d < 10 := hL d (by simp)
    have hrest : ∀ e ∈ L, e < 10 := fun e he => hL e (by simp [he])
    have hchar := digitChar_toNat d hd
    simp only [List.map_cons, List.reverse_cons, parseDigits,
      List.foldl_append, List.foldl_cons, List.foldl_nil] at ih ⊢
    rw [ih hrest, Nat.ofDigits_cons, hchar]
    omega

theorem parse_toDecimal (n : Nat) : parseDigits (toDecimal n) = n := by
  by_cases h : n = 0
  · subst h; rfl
  · rw [toDecimal, if_neg h,
      parse_rev_map _ (fun d hd => Nat.digits_lt_base (by norm_num) hd),
      Nat.ofDigits_digits]

theorem toDecimal_len_le_three (n : Nat) (h : n < 1000) :
    (toDecimal n).length ≤ 3 := by
  by_cases h0 : n = 0
  · subst h0; simp [toDecimal]
  · rw [toDecimal, if_neg h0]
    simp only [List.length_reverse, List.length_map]
    rw [Nat.digits_len 10 n (by norm_num) h0]
    have hlog : Nat.log 10 n < 3 := Nat.log_lt_of_lt_pow h0 (by omega)
    omega

/-- Claim C6: `format_size_with_commas n` inserts a comma every 3 digits
from the right (it is the comma-join of the three-digit groups of the
decimal string of `n`, counted from the right, each group nonempty and at
most three digits), equals the plain decimal string whenever `n < 1000`,
and stripping the commas and parsing the digits yields `n` again. -/
theorem format_size_with_commas_ok (n : Nat) :
    format_size_with_commas n = joinComma (chunksRight (toDecimal n))
    ∧ (∀ g ∈ chunksRight (toDecimal n), g ≠ [] ∧ g.length ≤ 3)
    ∧ (n < 1000 → format_size_with_commas n = toDecimal n)
    ∧ parseDigits ((format_size_with_commas n).filter (fun c => c != ',')) = n := by
  refine ⟨?_, chunksRight_groups _, ?_, ?_⟩
  · exact insertCommas_eq_chunks_aux (toDecimal n).length _ le_rfl
  · intro h
    exact insertCommas_short _ (toDecimal_len_le_three n h)
  · rw [format_size_with_commas, insertCommas,
      commaAux_filter _ _ (toDecimal_no_comma n) 0, parse_toDecimal]

theorem format_size_with_commas_ok_witness :
    format_size_with_commas 999 = toDecimal 999
    ∧ parseDigits ((format_size_with_commas 999).filter (fun c => c != ',')) = 999 :=
  ⟨(format_size_with_commas_ok 999).2.2.1 (by decide),
   (format_size_with_commas_ok 999).2.2.2⟩

/-! Helper lemmas for collapse_whitespace (claim C7). -/

theorem spacey_space : spacey ' ' = true := by decide

theorem rustIsWhitespace_space : rustIsWhitespace ' ' = true := by decide

theorem spacey_of_ws (c : Char) (h : rustIsWhitespace c = true) : spacey c = true := by
  simp [spacey, h]

theorem collapseCore_mem (l : List Char) :
    ∀ (prev : Bool) (c : Char), c ∈ collapseCore l prev → c = ' ' ∨ spacey c = false := by
  induction l with
  | nil => intro prev c hc; simp [collapseCore] at hc
  | cons a rest ih =>
    intro prev c hc
    cases hsp : spacey a with
    | true =>
      cases prev with
      | true => exact ih true c (by simpa [collapseCore, hsp] using hc)
      | false =>
        simp only [collapseCore, hsp, if_true, if_false, Bool.false_eq_true,
          List.mem_cons] at hc
        rcases hc with rfl | hc
        · exact Or.inl rfl
        · exact ih true c hc
    | false =>
      simp only [collapseCore, hsp, Bool.false_eq_true, if_false, List.mem_cons] at hc
      rcases hc with rfl | hc
      · exact Or.inr hsp
      · exact ih false c hc

theorem collapseCore_head (l : List Char) :
    (collapseCore l true).head? ≠ some ' ' := by
  induction l with
  | nil => simp [collapseCore]
  | cons a rest ih =>
    cases hsp : spacey a with
    | true => simpa [collapseCore, hsp] using ih
    | false =>
      simp only [collapseCore, hsp, Bool.false_eq_true, if_false, List.head?_cons,
        ne_eq, Option.some.injEq]
      rintro rfl
      rw [spacey_space] at hsp
      cases hsp

theorem collapseCore_chain (l : List Char) :
    ∀ prev, (collapseCore l prev).Chain' (fun a b => ¬(a = ' ' ∧ b = ' ')) := by
  induction l with
  | nil => intro prev; simp [collapseCore]
  | cons a rest ih =>
    intro prev
    cases hsp : spacey a with
    | true =>
      cases prev with
      | true => simpa [collapseCore, hsp] using ih true
      | false =>
        simp only [collapseCore, hsp, if_true, if_false, Bool.false_eq_true]
        rw [List.chain'_cons']
        refine ⟨?_, ih true⟩
        intro y hy
        rintro ⟨-, rfl⟩
        exact collapseCore_head rest (Option.mem_def.mp hy)
    | false =>
      simp only [collapseCore, hsp, Bool.false_eq_true, if_false]
      rw [List.chain'_cons']
      refine ⟨?_, ih false⟩
      intro y hy
      rintro ⟨rfl, -⟩
      rw [spacey_space] at hsp
      cases hsp

theorem collapseCore_fixed (l : List Char)
    (hmem : ∀ c ∈ l, c = ' ' ∨ spacey c = false)
    (hchain : l.Chain' (fun a b => ¬(a = ' ' ∧ b = ' '))) :
    (l.head? ≠ some ' ' → collapseCore l true = l) ∧ collapseCore l false = l := by
  induction l with
  | nil => exact ⟨fun _ => rfl, rfl⟩
  | cons c rest ih =>
    have hmemr : ∀ d ∈ rest, d = ' ' ∨ spacey d = false :=
      fun d hd => hmem d (List.mem_cons_of_mem _ hd)
    obtain ⟨hR, hchainr⟩ := List.chain'_cons'.mp hchain
    have ihr := ih hmemr hchainr
    rcases hmem c (List.mem_cons_self c rest) with hc | hc
    · subst hc
      have hrh : rest.head? ≠ some ' ' := by
        intro hh
        exact hR ' ' (Option.mem_def.mpr hh) ⟨rfl, rfl⟩
      constructor
      · intro hhead; simp at hhead
      · simp [collapseCore, spacey_space, ihr.1 hrh]
    · have heqt : collapseCore (c :: rest) true = c :: collapseCore rest false := by
        simp [collapseCore, hc]
      have heqf : collapseCore (c :: rest) false = c :: collapseCore rest false := by
        simp [collapseCore, hc]
      exact ⟨fun _ => by rw [heqt, ihr.2], by rw [heqf, ihr.2]⟩

theorem mem_rustTrim (l : List Char) (c : Char) (hc : c ∈ rustTrim l) : c ∈ l := by
  simp only [rustTrim, List.mem_reverse] at hc
  have h1 := (List.dropWhile_sublist rustIsWhitespace).subset hc
  rw [List.mem_reverse] at h1
  exact (List.dropWhile_sublist rustIsWhitespace).subset h1

theorem chain_reverse_space (m : List Char)
    (hm : m.Chain' (fun a b => ¬(a = ' ' ∧ b = ' '))) :
    m.reverse.Chain' (fun a b => ¬(a = ' ' ∧ b = ' ')) := by
  rw [List.chain'_reverse]
  exact hm.imp (fun a b hab hba => hab ⟨hba.2, hba.1⟩)

theorem rustTrim_chain (l : List Char)
    (h : l.Chain' (fun a b => ¬(a = ' ' ∧ b = ' '))) :
    (rustTrim l).Chain' (fun a b => ¬(a = ' ' ∧ b = ' ')) := by
  apply chain_reverse_space
  apply List.Chain'.suffix _ (List.dropWhile_suffix rustIsWhitespace)
  apply chain_reverse_space
  exact h.suffix (List.dropWhile_suffix rustIsWhitespace)

theorem rustTrim_head (l : List Char) (c : Char)
    (h : (rustTrim l).head? = some c) : rustIsWhitespace c = false := by
  obtain ⟨t, ht⟩ :=
    List.dropWhile_suffix (l := (l.dropWhile rustIsWhitespace).reverse) rustIsWhitespace
  have hl : l.dropWhile rustIsWhitespace = rustTrim l ++ t.reverse := by
    have := congrArg List.reverse ht
    simpa [rustTrim, List.reverse_append] using this.symm
  have hhd : (l.dropWhile rustIsWhitespace).head? = some c := by
    rcases hr : rustTrim l with _ | ⟨c', rest⟩
    · rw [hr] at h; cases h
    · rw [hr] at h
      simp only [List.head?_cons, Option.some.injEq] at h
      subst h
      rw [hl, hr]
      rfl
  have hw := List.head?_dropWhile_not rustIsWhitespace l
  rw [hhd] at hw
  exact hw

theorem rustTrim_getLast (l : List Char) (c : Char)
    (h : (rustTrim l).getLast? = some c) : rustIsWhitespace c = false := by
  rw [rustTrim, List.getLast?_reverse] at h
  have hw := List.head?_dropWhile_not rustIsWhitespace
    (l.dropWhile rustIsWhitespace).reverse
  rw [h] at hw
  exact hw

theorem rustTrim_noop (m : List Char)
    (h1 : ∀ x, m.head? = some x → rustIsWhitespace x = false)
    (h2 : ∀ x, m.getLast? = some x → rustIsWhitespace x = false) :
    rustTrim m = m := by
  have e1 : m.dropWhile rustIsWhitespace = m := by
    cases m with
    | nil => rfl
    | cons c r =>
      have := h1 c rfl
      simp [List.dropWhile_cons, this]
  rw [rustTrim, e1]
  have e2 : m.reverse.dropWhile rustIsWhitespace = m.reverse := by
    cases hr : m.reverse with
    | nil => rfl
    | cons d r2 =>
      have hd : m.getLast? = some d := by
        rw [← List.head?_reverse, hr]; rfl
      have := h2 d hd
      simp [List.dropWhile_cons, this]
  rw [e2, List.reverse_reverse]

/-- Claim C7: `collapse_whitespace` is idempotent, and its output has no
leading space, no trailing space, and no two adjacent interior spaces. -/
theorem collapse_whitespace_ok (s : List Char) :
    collapse_whitespace (collapse_whitespace s) = collapse_whitespace s
    ∧ (collapse_whitespace s).head? ≠ some ' '
    ∧ (collapse_whitespace s).getLast? ≠ some ' '
    ∧ (collapse_whitespace s).Chain' (fun a b => ¬(a = ' ' ∧ b = ' ')) := by
  have hmem : ∀ c ∈ collapse_whitespace s, c = ' ' ∨ spacey c = false :=
    fun c hc => collapseCore_mem s true c (mem_rustTrim _ c hc)
  have hchain : (collapse_whitespace s).Chain' (fun a b => ¬(a = ' ' ∧ b = ' ')) :=
    rustTrim_chain _ (collapseCore_chain s true)
  have hhead : (collapse_whitespace s).head? ≠ some ' ' := by
    intro hh
    have := rustTrim_head (collapseCore s true) ' ' hh
    rw [rustIsWhitespace_space] at this
    cases this
  have hlast : (collapse_whitespace s).getLast? ≠ some ' ' := by
    intro hh
    have := rustTrim_getLast (collapseCore s true) ' ' hh
    rw [rustIsWhitespace_space] at this
    cases this
  refine ⟨?_, hhead, hlast, hchain⟩
  have hgood : ∀ x, x ∈ collapse_whitespace s → x ≠ ' ' → rustIsWhitespace x = false := by
    intro x hxmem hxne
    rcases hmem x hxmem with rfl | hsp
    · exact absurd rfl hxne
    · cases hw : rustIsWhitespace x with
      | false => rfl
      | true => rw [spacey_of_ws x hw] at hsp; cases hsp
  have hcore : collapseCore (collapse_whitespace s) true = collapse_whitespace s :=
    (collapseCore_fixed _ hmem hchain).1 hhead
  show rustTrim (collapseCore (collapse_whitespace s) true) = collapse_whitespace s
  rw [hcore]
  refine rustTrim_noop _ ?_ ?_
  · intro x hx
    refine hgood x (List.mem_of_mem_head? (Option.mem_def.mpr hx)) ?_
    rintro rfl; exact hhead hx
  · intro x hx
    refine hgood x (List.mem_of_getLast?_eq_some hx) ?_
    rintro rfl; exact hlast hx

/-! Helper lemmas for the preview generator (claims C1 and C2). -/

theorem ws_false_of_nonspacey (c : Char) (h : spacey c = false) :
    rustIsWhitespace c = false := by
  cases hw : rustIsWhitespace c with
  | false => rfl
  | true => rw [spacey_of_ws c hw] at h; cases h

theorem collapseCore_keeps (l : List Char) :
    ∀ (prev : Bool) (c : Char), c ∈ l → spacey c = false → c ∈ collapseCore l prev := by
  induction l with
  | nil => intro prev c hc _; cases hc
  | cons a rest ih =>
    intro prev c hc hcs
    rcases List.mem_cons.mp hc with rfl | hc
    · simp [collapseCore, hcs]
    · cases hsp : spacey a with
      | true =>
        cases prev with
        | true => simpa [collapseCore, hsp] using ih true c hc hcs
        | false =>
          simp only [collapseCore, hsp, if_true, if_false, Bool.false_eq_true]
          exact List.mem_cons_of_mem _ (ih true c hc hcs)
      | false =>
        simp only [collapseCore, hsp, Bool.false_eq_true, if_false]
        exact List.mem_cons_of_mem _ (ih false c hc hcs)

theorem mem_dropWhile_of_neg {p : Char → Bool} :
    ∀ (l : List Char) (c : Char), c ∈ l → p c = false → c ∈ l.dropWhile p := by
  intro l
  induction l with
  | nil => intro c hc _; cases hc
  | cons a rest ih =>
    intro c hc hp
    rcases List.mem_cons.mp hc with rfl | hc
    · simp [List.dropWhile_cons, hp]
    · cases hpa : p a with
      | true =>
        simp only [List.dropWhile_cons, hpa, if_true]
        exact ih c hc hp
      | false =>
        simp only [List.dropWhile_cons, hpa, Bool.false_eq_true, if_false]
        exact List.mem_cons_of_mem _ hc

theorem mem_trim_of_nonspacey (m : List Char) (c : Char) (hc : c ∈ m)
    (hns : spacey c = false) : c ∈ rustTrim m := by
  have hws := ws_false_of_nonspacey c hns
  have h1 : c ∈ m.dropWhile rustIsWhitespace := mem_dropWhile_of_neg m c hc hws
  have h2 : c ∈ (m.dropWhile rustIsWhitespace).reverse := List.mem_reverse.mpr h1
  have h3 := mem_dropWhile_of_neg _ c h2 hws
  exact List.mem_reverse.mpr h3

theorem graphic_not_spacey :
    ∀ b : Nat, b < 0x7F → 0x21 ≤ b → spacey (Char.ofNat b) = false := by decide

theorem preview_binary_ne_nil (bytes : List Nat)
    (h : ∃ b ∈ bytes, 0x21 ≤ b ∧ b ≤ 0x7E) : preview_binary (some bytes) ≠ [] := by
  obtain ⟨b, hb, h1, h2⟩ := h
  have hlen : ¬ bytes.length = 0 := by
    simp only [List.length_eq_zero]
    exact List.ne_nil_of_mem hb
  simp only [preview_binary, if_neg hlen]
  have hfil : b ∈ bytes.filter is_printable_ascii := by
    rw [List.mem_filter]
    refine ⟨hb, ?_⟩
    simp only [is_printable_ascii, decide_eq_true_eq]
    omega
  have hmemc : Char.ofNat b ∈ (bytes.filter is_printable_ascii).map Char.ofNat :=
    List.mem_map_of_mem _ hfil
  have hns : spacey (Char.ofNat b) = false := graphic_not_spacey b (by omega) h1
  have hcoll : Char.ofNat b
      ∈ collapse_whitespace ((bytes.filter is_printable_ascii).map Char.ofNat) :=
    mem_trim_of_nonspacey _ _ (collapseCore_keeps _ true _ hmemc hns) hns
  intro hcon
  rcases List.take_eq_nil_iff.mp hcon with h20 | hnil
  · exact absurd h20 (by decide)
  · exact List.ne_nil_of_mem hcoll hnil

theorem cleanedOf_ne_nil (t : List Char) (ht : t ≠ []) : cleanedOf t ≠ [] := by
  simp only [cleanedOf]
  cases h : rfindSpace t with
  | none => exact ht
  | some idx =>
    dsimp only
    by_cases h0 : 0 < idx
    · rw [if_pos h0]
      intro hcon
      rcases List.take_eq_nil_iff.mp hcon with hz | hnil
      · omega
      · exact ht hnil
    · rw [if_neg h0]; exact ht

theorem dirChildName_ne_nil (p : List Char × Bool) (hp : p.1 ≠ []) :
    dirChildName p ≠ [] := by
  unfold dirChildName
  split
  · simp
  · exact hp

theorem preview_directory_core_ne_nil (f : List Char × Bool)
    (rest : List (List Char × Bool)) (hf : f.1 ≠ []) :
    preview_directory_core (f :: rest) ≠ [] := by
  have hdn := dirChildName_ne_nil f hf
  have htake : ((f :: rest).map dirChildName).take 32
      = dirChildName f :: (rest.map dirChildName).take 31 := rfl
  obtain ⟨t, ht⟩ : ∃ t, joinSpace (dirChildName f :: (rest.map dirChildName).take 31)
      = dirChildName f ++ t := by
    cases h : (rest.map dirChildName).take 31 with
    | nil => exact ⟨[], by simp [joinSpace]⟩
    | cons y ys => exact ⟨' ' :: joinSpace (y :: ys), rfl⟩
  have htxt : joinSpace (((f :: rest).map dirChildName).take 32) ≠ [] := by
    rw [htake, ht]
    simp [hdn]
  have htrunc : (joinSpace (((f :: rest).map dirChildName).take 32)).take 20 ≠ [] := by
    intro hcon
    rcases List.take_eq_nil_iff.mp hcon with hz | hnil
    · exact absurd hz (by decide)
    · exact htxt hnil
  have hcl := cleanedOf_ne_nil _ htrunc
  simp only [preview_directory_core]
  split
  · simp
  · exact hcl

theorem rfindSpace_of_no_space :
    ∀ (l : List Char), (∀ c ∈ l, c ≠ ' ') → rfindSpace l = none := by
  intro l
  induction l with
  | nil => intro _; rfl
  | cons c rest ih =>
    intro h
    have hr := ih (fun d hd => h d (List.mem_cons_of_mem _ hd))
    have hc : c ≠ ' ' := h c (List.mem_cons_self _ _)
    simp [rfindSpace, hr, hc]

theorem rfindSpace_last (A B : List Char) (hB : ∀ c ∈ B, c ≠ ' ') :
    rfindSpace (A ++ ' ' :: B) = some A.length := by
  induction A with
  | nil => simp [rfindSpace, rfindSpace_of_no_space B hB]
  | cons a A ih => simp [rfindSpace, ih]

theorem dropWhile_append_of_all {p : Char → Bool} :
    ∀ (xs ys : List Char), (∀ x ∈ xs, p x = true) →
      (xs ++ ys).dropWhile p = ys.dropWhile p := by
  intro xs ys
  induction xs with
  | nil => intro _; rfl
  | cons x xs ih =>
    intro h
    have hx := h x (List.mem_cons_self _ _)
    simp [List.dropWhile_cons, hx, ih (fun d hd => h d (List.mem_cons_of_mem _ hd))]

theorem space_decomp (l : List Char) :
    (∀ c ∈ l, c ≠ ' ') ∨ ∃ A B, l = A ++ ' ' :: B ∧ ∀ c ∈ B, c ≠ ' ' := by
  induction l with
  | nil => exact Or.inl (fun c hc => absurd hc (List.not_mem_nil c))
  | cons a rest ih =>
    rcases ih with h | ⟨A, B, rfl, hB⟩
    · by_cases ha : a = ' '
      · subst ha; exact Or.inr ⟨[], rest, rfl, h⟩
      · refine Or.inl ?_
        intro c hc
        rcases List.mem_cons.mp hc with rfl | hc
        · exact ha
        · exact h c hc
    · exact Or.inr ⟨a :: A, B, rfl, hB⟩

theorem trimToLastSpace_no_space (l : List Char) (h : ∀ c ∈ l, c ≠ ' ') :
    trimToLastSpace l = l := by
  have hall : ∀ x ∈ l.reverse, (!(x == ' ')) = true := by
    intro x hx
    have := h x (List.mem_reverse.mp hx)
    simp [this]
  have hd : l.reverse.dropWhile (fun c => !(c == ' ')) = [] :=
    List.dropWhile_eq_nil_iff.mpr hall
  simp [trimToLastSpace, hd]

theorem trimToLastSpace_last (A B : List Char) (hB : ∀ c ∈ B, c ≠ ' ') :
    trimToLastSpace (A ++ ' ' :: B) = if A = [] then A ++ ' ' :: B else A := by
  have hrev : (A ++ ' ' :: B).reverse = B.reverse ++ ' ' :: A.reverse := by
    simp [List.reverse_append]
  have hallB : ∀ x ∈ B.reverse, (!(x == ' ')) = true := by
    intro x hx
    have := hB x (List.mem_reverse.mp hx)
    simp [this]
  have hd : (A ++ ' ' :: B).reverse.dropWhile (fun c => !(c == ' '))
      = ' ' :: A.reverse := by
    rw [hrev, dropWhile_append_of_all _ _ hallB]
    simp [List.dropWhile_cons]
  by_cases hA : A = []
  · subst hA
    unfold trimToLastSpace
    rw [hd]
    simp
  · have hAr : A.reverse ≠ [] := by simpa using hA
    obtain ⟨x, xs, hx⟩ := List.exists_cons_of_ne_nil hAr
    rw [if_neg hA]
    simp only [trimToLastSpace, hd, hx]
    rw [← hx, List.reverse_reverse]

theorem cleanedOf_eq_trim (l : List Char) : cleanedOf l = trimToLastSpace l := by
  rcases space_decomp l with h | ⟨A, B, rfl, hB⟩
  · rw [trimToLastSpace_no_space l h]
    simp [cleanedOf, rfindSpace_of_no_space l h]
  · rw [trimToLastSpace_last A B hB]
    simp only [cleanedOf, rfindSpace_last A B hB]
    by_cases hA : A = []
    · subst hA; simp
    · have hpos : 0 < A.length := List.length_pos.mpr hA
      rw [if_pos hpos, if_neg hA]
      exact List.take_left A (' ' :: B)

/-- Claim C1 fails as stated: `preview_binary` returns the empty string for
a readable one-byte file holding a NUL byte, and `preview_directory`
returns the empty string for a readable empty directory. -/
theorem preview_empty_possible :
    preview_binary (some [0]) = [] ∧ preview_directory (some []) = [] := by
  refine ⟨by decide, by decide⟩

/-- Claim C1, amended: an unreadable directory previews as `"-"` and a
readable one previews as the empty string exactly when it has no children
(child names being nonempty, as OS file names are); `preview_binary` never
returns the empty string when the bytes read contain at least one graphic
ASCII character `0x21`–`0x7E` (it does return `""` for readable content
with none, such as a single NUL byte, and `" "` for unreadable or empty
reads). -/
theorem preview_nonempty_amended (files : List (List Char × Bool))
    (hnames : ∀ p ∈ files, p.1 ≠ ([] : List Char))
    (bytes : List Nat) (hbyte : ∃ b ∈ bytes, 0x21 ≤ b ∧ b ≤ 0x7E) :
    (preview_directory (some files) = [] ↔ files = [])
    ∧ preview_directory none = ['-']
    ∧ preview_binary (some bytes) ≠ [] := by
  refine ⟨⟨?_, ?_⟩, rfl, preview_binary_ne_nil bytes hbyte⟩
  · intro h
    by_contra hne
    obtain ⟨f, rest, rfl⟩ := List.exists_cons_of_ne_nil hne
    exact preview_directory_core_ne_nil f rest (hnames f (List.mem_cons_self _ _)) h
  · rintro rfl; rfl

theorem preview_nonempty_amended_witness :
    (preview_directory (some [(['a'], false)]) = []
        ↔ ([(['a'], false)] : List (List Char × Bool)) = [])
    ∧ preview_directory none = ['-']
    ∧ preview_binary (some [65]) ≠ [] :=
  preview_nonempty_amended [(['a'], false)] (by decide) [65] (by decide)

/-- Claim C2 fails as stated: for a readable directory with children `abc`
and `def` the joined text `abc def` is only 7 characters, so the 20-char cut
removes nothing and falls on no word; the claim then yields `abc def`
untrimmed, but the code unconditionally trims back to the last space and
returns `abc`. -/
theorem preview_directory_trim_divergence :
    preview_directory_core [(['a', 'b', 'c'], false), (['d', 'e', 'f'], false)]
      = ['a', 'b', 'c']
    ∧ preview_directory_claimed [(['a', 'b', 'c'], false), (['d', 'e', 'f'], false)]
      = ['a', 'b', 'c', ' ', 'd', 'e', 'f']
    ∧ preview_directory_core [(['a', 'b', 'c'], false), (['d', 'e', 'f'], false)]
      ≠ preview_directory_claimed [(['a', 'b', 'c'], false), (['d', 'e', 'f'], false)] := by
  refine ⟨by decide, by decide, by decide⟩

/-- Claim C2, amended: the directory preview lists up to 32 children, `/`
suffixed when they resolve to directories, joins them with single spaces,
takes the first 20 characters, and then — whenever that truncation contains
a space at a position past 0, whether or not the cut fell mid-word — trims
back to the last space boundary; `" ..."` is appended exactly when the
directory holds more than 32 children, and an unreadable directory yields
`"-"`. -/
theorem preview_directory_amended_eq (res : Option (List (List Char × Bool))) :
    preview_directory res = preview_directory_amended res := by
  cases res with
  | none => rfl
  | some files =>
    simp only [preview_directory, preview_directory_core, preview_directory_amended]
    rw [cleanedOf_eq_trim]
    have hcond : (((files.map dirChildName).take 32).length
        < (files.map dirChildName).length) ↔ 32 < files.length := by
      simp only [List.length_take, List.length_map]
      omega
    by_cases h : 32 < files.length
    · rw [if_pos (hcond.mpr h), if_pos h]
    · rw [if_neg (fun hc => h (hcond.mp hc)), if_neg h]

theorem collapse_whitespace_ok_witness :
    collapse_whitespace (collapse_whitespace [' ', 'a', ' ', ' ', 'b', ' '])
      = collapse_whitespace [' ', 'a', ' ', ' ', 'b', ' '] :=
  (collapse_whitespace_ok [' ', 'a', ' ', ' ', 'b', ' ']).1

/-! Helper lemmas for the sorter (claim C4). -/

theorem lexLe_total : ∀ (a b : List Char), (lexLe a b || lexLe b a) = true := by
  intro a
  induction a with
  | nil => intro b; rfl
  | cons x restA ih =>
    intro b
    cases b with
    | nil => rfl
    | cons y restB =>
      rcases Nat.lt_trichotomy x.toNat y.toNat with h | h | h
      · simp [lexLe, h]
      · simp only [lexLe, h, Nat.lt_irrefl, if_false]
        exact ih restB
      · simp [lexLe, h, Nat.lt_asymm h]

theorem lexLe_trans :
    ∀ (a b c : List Char), lexLe a b = true → lexLe b c = true → lexLe a c = true := by
  intro a
  induction a with
  | nil => intro b c _ _; rfl
  | cons x restA ih =>
    intro b c hab hbc
    cases b with
    | nil => simp [lexLe] at hab
    | cons y restB =>
      cases c with
      | nil => simp [lexLe] at hbc
      | cons z restC =>
        have hyz : ¬ z.toNat < y.toNat := by
          intro hzy
          rw [lexLe, if_neg (Nat.lt_asymm hzy), if_pos hzy] at hbc
          cases hbc
        rcases Nat.lt_trichotomy x.toNat y.toNat with h1 | h1 | h1
        · have hxz : x.toNat < z.toNat := by
            rcases Nat.lt_or_ge y.toNat z.toNat with h2 | h2
            · omega
            · omega
          simp [lexLe, hxz]
        · rw [lexLe, if_neg (by omega), if_neg (by omega)] at hab
          rcases Nat.lt_trichotomy y.toNat z.toNat with h2 | h2 | h2
          · rw [lexLe, if_pos (by omega)]
          · rw [lexLe, if_neg (by omega), if_neg (by omega)]
            rw [lexLe, if_neg (by omega), if_neg (by omega)] at hbc
            exact ih restB restC hab hbc
          · omega
        · rw [lexLe, if_neg (Nat.lt_asymm h1), if_pos h1] at hab
          cases hab

theorem rowLe_trans :
    ∀ (a b c : FileRow), rowLe a b = true → rowLe b c = true → rowLe a c = true := by
  intro a b c hab hbc
  unfold rowLe at hab hbc ⊢
  cases hfa : a.info.ftype <;> cases hfb : b.info.ftype <;> cases hfc : c.info.ftype <;>
    rw [hfa, hfb] at hab <;> rw [hfb, hfc] at hbc <;>
      simp only at hab hbc ⊢ <;>
      first
        | rfl
        | exact Bool.noConfusion hab
        | exact Bool.noConfusion hbc
        | exact lexLe_trans _ _ _ hab hbc

theorem rowLe_total : ∀ (a b : FileRow), (rowLe a b || rowLe b a) = true := by
  intro a b
  unfold rowLe
  cases hfa : a.info.ftype <;> cases hfb : b.info.ftype <;> simp only
  · exact lexLe_total _ _
  · rfl
  · rfl
  · exact lexLe_total _ _

/-- Claim C4: after `sort_rows`, every Directory-typed row precedes every
File-typed row, and any two rows of the same FileType appear with their
lowercased full path strings in non-decreasing lexical order. -/
theorem sort_rows_ordered (rows : List FileRow) :
    (sort_rows rows).Pairwise (fun a b =>
      (a.info.ftype = FileType.Directory ∨ b.info.ftype = FileType.File)
      ∧ (a.info.ftype ≠ b.info.ftype
          ∨ lexLe (lowerName a.info.fname) (lowerName b.info.fname) = true)) := by
  have hs := List.sorted_mergeSort rowLe_trans rowLe_total rows
  refine hs.imp ?_
  intro a b hab
  unfold rowLe at hab
  cases hfa : a.info.ftype <;> cases hfb : b.info.ftype <;>
    rw [hfa, hfb] at hab <;> simp only at hab
  · exact ⟨Or.inr rfl, Or.inr hab⟩
  · cases hab
  · exact ⟨Or.inl rfl, Or.inl (by intro h; cases h)⟩
  · exact ⟨Or.inl rfl, Or.inr hab⟩

theorem sort_rows_ordered_witness :
    (sort_rows [sampleRow ['b'] FileType.File, sampleRow ['A'] FileType.Directory]).Pairwise
      (fun a b =>
        (a.info.ftype = FileType.Directory ∨ b.info.ftype = FileType.File)
        ∧ (a.info.ftype ≠ b.info.ftype
            ∨ lexLe (lowerName a.info.fname) (lowerName b.info.fname) = true)) :=
  sort_rows_ordered [sampleRow ['b'] FileType.File, sampleRow ['A'] FileType.Directory]

end Els
